import Mathlib

/-!
Verification development for the mantissa-segmentation library `manseglib.hpp`
(namespace `ManSeg` in the C++ source).

A 64-bit IEEE-754 double is modelled by its bit pattern, a natural number
below `2^64`.  The 32-bit head/tail cells are naturals below `2^32`; the
explicit `% 2^32` in the codec mirrors the machine truncation performed by the
`_mm_castpd_ps` / `_mm_castps_pd` lane extraction in the source.  The rational
valued semantics `val64` interprets a finite bit pattern as the real number it
denotes, which is all the precision claims need (no rounding is performed by
the codec itself).
-/

namespace ManSeg

/-- Upper 32 bits of a double's bit pattern, as stored into a head cell by
`Head::operator=` and `TwoSegArray<false>::set` (`seg_v[1]` in the source). -/
def encodeHeadOnly (d : ℕ) : ℕ := d / 2 ^ 32 % 2 ^ 32

/-- Lower 32 bits of a double's bit pattern, as stored into a tail cell by
`TwoSegArray<true>::set` and `setPair` (`seg_v[0]` in the source). -/
def encodeFullTail (d : ℕ) : ℕ := d % 2 ^ 32

/-- Recombination of a head and a tail cell into a 64-bit pattern, as done by
`Pair::operator double` (`_mm_set_ps(0,0,*head,*tail)` reinterpreted). -/
def decodeFull (h t : ℕ) : ℕ := h * 2 ^ 32 + t

/-- Head-only decode: the head cell becomes the upper 32 bits, the lower 32
bits are zero, as done by `Head::operator double`
(`_mm_set_ps(0,0,*head,0)` reinterpreted). -/
def decodeHeadOnly (h : ℕ) : ℕ := h * 2 ^ 32

/-- Reading a `Pair` accessor as a double (its conversion operator). -/
def pairToDouble (p : ℕ × ℕ) : ℕ := decodeFull p.1 p.2

/-! ### IEEE-754 value semantics of a 64-bit pattern -/

/-- Sign bit of a 64-bit pattern. -/
def signBit (d : ℕ) : ℕ := d / 2 ^ 63

/-- 11-bit exponent field of a 64-bit pattern. -/
def expField (d : ℕ) : ℕ := d / 2 ^ 52 % 2 ^ 11

/-- 52-bit mantissa field of a 64-bit pattern. -/
def mantField (d : ℕ) : ℕ := d % 2 ^ 52

/-- The real (rational) value denoted by a finite 64-bit IEEE-754 pattern:
subnormals when the exponent field is zero, normals otherwise.  Patterns with
exponent field `2047` (infinities, NaNs) are not finite; the formula assigns
them an unused junk value, and every theorem about values carries a
finiteness hypothesis. -/
def val64 (d : ℕ) : ℚ :=
  (if signBit d = 1 then (-1 : ℚ) else 1) *
    (if expField d = 0 then (mantField d : ℚ) * (2 : ℚ) ^ (-(1074 : ℤ))
     else ((2 ^ 52 + mantField d : ℕ) : ℚ) * (2 : ℚ) ^ ((expField d : ℤ) - 1075))

/-- `constexpr double MaxSingleSegmentPrecision = 1e-6` from the source,
as an exact rational. -/
def MaxSingleSegmentPrecision : ℚ := 1 / 1000000

/-! ### Segmented storage

The two parallel cell arrays `heads` / `tails` of a `TwoSegArray`, plus the
array length.  Cells are modelled as total functions `ℕ → ℕ`; the source never
compares an index against the length (there is no bounds check), which the
model mirrors by letting every operation use the raw index.  The
`TwoSegArray<false>` (reduced) and `TwoSegArray<true>` (full) views obtained
from `createFullPrecision` share the same backing arrays, so both are
operations on one `SegState`. -/

structure SegState where
  heads : ℕ → ℕ
  tails : ℕ → ℕ
  length : ℕ

/-- `TwoSegArray<false>::set(id, t)`: writes only `heads[id]` with the upper
32 bits of the double; the tails array is untouched.  No bounds check. -/
def setReduced (st : SegState) (id v : ℕ) : SegState :=
  { st with heads := Function.update st.heads id (encodeHeadOnly v) }

/-- `TwoSegArray<true>::set(id, t)` (= `setPair`): writes `tails[id]` with the
lower 32 bits and `heads[id]` with the upper 32 bits.  No bounds check. -/
def setFull (st : SegState) (id v : ℕ) : SegState :=
  { st with
    heads := Function.update st.heads id (encodeHeadOnly v)
    tails := Function.update st.tails id (encodeFullTail v) }

/-- `TwoSegArray<false>::read(id)`: head-only decode of `heads[id]`. -/
def readReduced (st : SegState) (id : ℕ) : ℕ :=
  decodeHeadOnly (st.heads id)

/-- `TwoSegArray<true>::read(id)`: full decode of `heads[id]` and
`tails[id]` through a `Pair` accessor. -/
def readFullView (st : SegState) (id : ℕ) : ℕ :=
  decodeFull (st.heads id) (st.tails id)

/-! ### Claim C1: full-precision round trip -/

/-- C1. Writing any 64-bit pattern `d` through the full-precision
`TwoSegArray<true>::set` and reading the element back through the `Pair`
conversion to double returns `d` bit-identically.  This covers every finite
double including `±0.0` and also `±inf` (all are patterns below `2^64`). -/
theorem full_roundtrip (st : SegState) (id d : ℕ) (h64 : d < 2 ^ 64) :
    readFullView (setFull st id d) id = d := by
  unfold readFullView setFull decodeFull encodeHeadOnly encodeFullTail
  simp only [Function.update_same]
  have hq : d / 2 ^ 32 < 2 ^ 32 := by omega
  rw [Nat.mod_eq_of_lt hq]
  omega

/-- Witness for C1 at the bit pattern of `1.0` (`0x3FF0000000000000`). -/
theorem full_roundtrip_witness :
    (4607182418800017408 : ℕ) < 2 ^ 64 ∧
      readFullView (setFull ⟨fun _ => 0, fun _ => 0, 1⟩ 0 4607182418800017408) 0 =
        4607182418800017408 :=
  ⟨by norm_num,
   full_roundtrip ⟨fun _ => 0, fun _ => 0, 1⟩ 0 4607182418800017408 (by norm_num)⟩

/-! ### Element accessors

A `Head` accessor is bound to one head cell; a `Pair` accessor to the head and
tail cells of one element.  To express frame properties ("the tail cell is
untouched") an element's pair of cells is modelled as `ℕ × ℕ`
(`(head, tail)`), and a `Head`-accessor operation acts on that pair while only
ever using the head component, exactly as the accessor only holds a `head`
pointer in the source. -/

/-- `Head::operator=(const T&)`: stores the upper 32 bits of the value into
the head cell; the element's tail cell is not referenced. -/
def headAssign (cell : ℕ × ℕ) (v : ℕ) : ℕ × ℕ :=
  (encodeHeadOnly v, cell.2)

/-- `Head::operator+=` / `-=` / `*=` / `/=`: `double t = *this; t ⊙= rhs;
*this = t; return t;`.  `dop` stands for the IEEE double operation `⊙`
performed by the hardware on the two 64-bit operands (the code computes it in
full double precision); the definition records the dataflow: the accessor is
decoded head-only, the operation is applied, the result is written back
head-only, and the untruncated result is returned. -/
def headCompound (dop : ℕ → ℕ → ℕ) (cell : ℕ × ℕ) (r : ℕ) : (ℕ × ℕ) × ℕ :=
  let t := dop (decodeHeadOnly cell.1) r
  (headAssign cell t, t)

/-- `Pair::Pair(const Head& o)`: `*head = *o.head; *tail = 0;` — copies the
head cell's value and zero-fills the tail cell. -/
def pairFromHead (h : ℕ) : ℕ × ℕ := (h, 0)

/-- `Pair::operator=(const Head& other)`: `*head = *other.head;` — copies
only the head cell; the tail cell is left unchanged. -/
def pairAssignHead (cell : ℕ × ℕ) (h : ℕ) : ℕ × ℕ :=
  (h, cell.2)

/-! ### Claim C4: reduced writes touch only the head cell -/

/-- C4. `TwoSegArray<false>::set(i, v)` modifies only `heads[i]`: the whole
tails array is unchanged and every other head cell is unchanged; likewise
`Head::operator=` writes the head cell of its element and leaves the tail
cell as it was. -/
theorem reduced_set_frame (st : SegState) (i j v : ℕ) (cell : ℕ × ℕ) :
    (setReduced st i v).tails = st.tails ∧
      (setReduced st i v).heads i = encodeHeadOnly v ∧
      (j ≠ i → (setReduced st i v).heads j = st.heads j) ∧
      (setReduced st i v).length = st.length ∧
      headAssign cell v = (encodeHeadOnly v, cell.2) := by
  refine ⟨rfl, ?_, ?_, rfl, rfl⟩
  · simp [setReduced, Function.update_same]
  · intro hj
    simp [setReduced, Function.update_noteq hj]

/-- Witness for C4 at concrete state, indices `1 ≠ 0` and value `1.0`. -/
theorem reduced_set_frame_witness :
    (setReduced ⟨fun _ => 7, fun _ => 9, 2⟩ 0 4607182418800017408).tails = (fun _ => 9) ∧
      (setReduced ⟨fun _ => 7, fun _ => 9, 2⟩ 0 4607182418800017408).heads 0 =
        encodeHeadOnly 4607182418800017408 ∧
      ((1 : ℕ) ≠ 0 → (setReduced ⟨fun _ => 7, fun _ => 9, 2⟩ 0 4607182418800017408).heads 1 = 7) ∧
      (setReduced ⟨fun _ => 7, fun _ => 9, 2⟩ 0 4607182418800017408).length = 2 ∧
      headAssign (7, 9) 4607182418800017408 = (encodeHeadOnly 4607182418800017408, 9) :=
  reduced_set_frame ⟨fun _ => 7, fun _ => 9, 2⟩ 0 1 4607182418800017408 (7, 9)

/-! ### Claim C5: compound arithmetic on a Head accessor -/

/-- C5. A compound operation on a `Head` accessor computes
`t = dop(decodeHeadOnly(head), r)` with the full-double-precision operation
`dop`, stores `encodeHeadOnly t` into the head cell, leaves the tail cell
untouched, and returns the untruncated `t`. -/
theorem head_compound_spec (dop : ℕ → ℕ → ℕ) (cell : ℕ × ℕ) (r : ℕ) :
    (headCompound dop cell r).2 = dop (decodeHeadOnly cell.1) r ∧
      (headCompound dop cell r).1.1 = encodeHeadOnly ((headCompound dop cell r).2) ∧
      (headCompound dop cell r).1.2 = cell.2 :=
  ⟨rfl, rfl, rfl⟩

/-! ### Claim C6: constructing a Pair accessor from a Head accessor -/

/-- C6. `Pair(const Head&)` copies the head cell's value into the pair's head
cell and zero-fills its tail cell; consequently the freshly constructed pair
decodes to exactly the head-only decode of the head cell. -/
theorem pair_from_head_spec (h : ℕ) :
    (pairFromHead h).1 = h ∧ (pairFromHead h).2 = 0 ∧
      pairToDouble (pairFromHead h) = decodeHeadOnly h := by
  refine ⟨rfl, rfl, ?_⟩
  simp [pairFromHead, pairToDouble, decodeFull, decodeHeadOnly]

/-! ### Claim C10: Pair::operator= from Head keeps the stale tail -/

/-- C10. Assigning a `Head` accessor to an existing `Pair` accessor copies
only the head cell; the pair's tail cell keeps its old value, so when that
old tail is nonzero the subsequently read full value is
`decodeFull(head, old_tail)`, which differs from `decodeHeadOnly(head)`
(unlike the `Pair`-from-`Head` constructor, which zero-fills the tail). -/
theorem pair_assign_head_stale_tail (cell : ℕ × ℕ) (h : ℕ)
    (ht : cell.2 < 2 ^ 32) (hnz : cell.2 ≠ 0) :
    (pairAssignHead cell h).1 = h ∧
      (pairAssignHead cell h).2 = cell.2 ∧
      pairToDouble (pairAssignHead cell h) = decodeFull h cell.2 ∧
      pairToDouble (pairAssignHead cell h) ≠ decodeHeadOnly h := by
  refine ⟨rfl, rfl, rfl, ?_⟩
  simp only [pairAssignHead, pairToDouble, decodeFull, decodeHeadOnly]
  omega

/-- Witness for C10: head cell `0x3FF00000`, stale tail `5`. -/
theorem pair_assign_head_stale_tail_witness :
    (5 : ℕ) < 2 ^ 32 ∧
      (pairAssignHead (7, 5) 1072693248).1 = 1072693248 ∧
      (pairAssignHead (7, 5) 1072693248).2 = 5 ∧
      pairToDouble (pairAssignHead (7, 5) 1072693248) = decodeFull 1072693248 5 ∧
      pairToDouble (pairAssignHead (7, 5) 1072693248) ≠ decodeHeadOnly 1072693248 := by
  have h := pair_assign_head_stale_tail (7, 5) 1072693248 (by norm_num) (by norm_num)
  exact ⟨by norm_num, h.1, h.2.1, h.2.2.1, h.2.2.2⟩

/-! ### Claim C3: aliasing of the reduced and full views

`TwoSegArray<false>::createFullPrecision()` returns a `TwoSegArray<true>`
constructed from the same `heads` / `tails` pointers, so the derived full
view and the reduced view are operations on the same `SegState`; a write
through `setReduced` is immediately visible to `readFullView`. -/

/-- C3. After `set(i, v)` on the reduced view, reading element `i` through the
`createFullPrecision`-derived full view sees the fresh head together with the
old tail, and the head-decoded portion of that full value is exactly
`decodeHeadOnly (encodeHeadOnly v)`. -/
theorem escalate_aliasing (st : SegState) (i v : ℕ)
    (ht : st.tails i < 2 ^ 32) :
    readFullView (setReduced st i v) i =
        decodeFull (encodeHeadOnly v) (st.tails i) ∧
      decodeHeadOnly (encodeHeadOnly (readFullView (setReduced st i v) i)) =
        decodeHeadOnly (encodeHeadOnly v) := by
  constructor
  · simp [readFullView, setReduced, Function.update_same]
  · have hread : readFullView (setReduced st i v) i =
        encodeHeadOnly v * 2 ^ 32 + st.tails i := by
      simp [readFullView, setReduced, decodeFull, Function.update_same]
    rw [hread]
    have hv : encodeHeadOnly v < 2 ^ 32 := Nat.mod_lt _ (by norm_num)
    have : encodeHeadOnly (encodeHeadOnly v * 2 ^ 32 + st.tails i) =
        encodeHeadOnly v := by
      unfold encodeHeadOnly at *
      omega
    rw [this]

/-- Witness for C3: a concrete state whose tail cell `0` holds `3`, written
with the bit pattern of `1.0`. -/
theorem escalate_aliasing_witness :
    (3 : ℕ) < 2 ^ 32 ∧
      readFullView (setReduced ⟨fun _ => 0, fun _ => 3, 1⟩ 0 4607182418800017408) 0 =
        decodeFull (encodeHeadOnly 4607182418800017408) 3 ∧
      decodeHeadOnly (encodeHeadOnly
          (readFullView (setReduced ⟨fun _ => 0, fun _ => 3, 1⟩ 0 4607182418800017408) 0)) =
        decodeHeadOnly (encodeHeadOnly 4607182418800017408) := by
  have h := escalate_aliasing ⟨fun _ => 0, fun _ => 3, 1⟩ 0 4607182418800017408 (by norm_num)
  exact ⟨by norm_num, h.1, h.2⟩

/-! ### Claim C9: no bounds checking on element access

`TwoSegArray<true/false>::operator[]`, `read` and `set` index the raw arrays
directly (`return Pair(&heads[id], &tails[id]);` etc.); the index is never
compared against the length and no error path exists.  The claim that an
out-of-range access fails with an `IndexOutOfRange` error is therefore false:
the access silently touches the backing store at the raw index (undefined
behaviour in C++, modelled here by the total cell functions). -/

/-- Counterexample to C9 as stated: on a length-1 array, `set(5, 1.0)` does
not fail — it silently writes head cell `5` — and `read 5` silently decodes
head cell `5`; no `IndexOutOfRange` error is produced anywhere. -/
theorem no_bounds_check_counterexample :
    (⟨fun _ => 0, fun _ => 0, 1⟩ : SegState).length = 1 ∧
      ¬ (5 < (⟨fun _ => 0, fun _ => 0, 1⟩ : SegState).length) ∧
      (setReduced ⟨fun _ => 0, fun _ => 0, 1⟩ 5 4607182418800017408).heads 5 =
        encodeHeadOnly 4607182418800017408 ∧
      encodeHeadOnly 4607182418800017408 ≠ 0 ∧
      readReduced (setReduced ⟨fun _ => 0, fun _ => 0, 1⟩ 5 4607182418800017408) 5 =
        decodeHeadOnly (encodeHeadOnly 4607182418800017408) := by
  refine ⟨rfl, by norm_num, ?_, by norm_num [encodeHeadOnly], ?_⟩
  · simp [setReduced, Function.update_same]
  · simp [readReduced, setReduced, Function.update_same]

/-- C9 as amended: element access performs no bounds check at all — `set`
writes and `read` decodes the backing cell at the given index whatever the
array length is, and the result does not depend on the length field; no
error is ever reported. -/
theorem no_bounds_check (st : SegState) (i v n : ℕ) :
    (setReduced st i v).heads i = encodeHeadOnly v ∧
      readReduced st i = decodeHeadOnly (st.heads i) ∧
      readReduced { st with length := n } i = readReduced st i ∧
      readFullView { st with length := n } i = readFullView st i ∧
      (setReduced { st with length := n } i v).heads = (setReduced st i v).heads := by
  exact ⟨by simp [setReduced, Function.update_same], rfl, rfl, rfl, rfl⟩

/-! ### Composite array (`ManSegArray`)

`ManSegArray` bundles the reduced view `heads`, the aliased full view
`pairs` (sharing the same backing arrays) and the optional mirror `full`.
The shared segmented storage is `segStore : Option SegState` (`none` models
both `heads` and `tails` being `nullptr` after `del`); the mirror is an
optional list of 64-bit patterns. -/

structure ManSegState where
  segStore : Option SegState
  full : Option (List ℕ)
  length : ℕ

/-- `TwoSegArray<false>::del()`: deletes whichever of the two arrays is
non-null and sets both pointers to null.  Whatever the prior state, the
result is the released state; the function returns `void`, so no error can
be reported. -/
def tsaDel (_s : Option SegState) : Option SegState := none

/-- `ManSegArray::delSegments()`: `heads.del(); if (full == nullptr)
length = 0;`. -/
def delSegments (m : ManSegState) : ManSegState :=
  { m with
    segStore := tsaDel m.segStore
    length := if m.full = none then 0 else m.length }

/-- Modelled from the spec: the error-reporting release the spec demands
(`releaseStorage` "must be rejected, not silently ignored" on a second
call).  This definition follows the spec's words — it is absent from the
source, which has no error channel — and exists only to be compared with
`delSegments`. -/
def delSegmentsSpecced (m : ManSegState) : Except String ManSegState :=
  match m.segStore with
  | none => Except.error "DoubleRelease"
  | some _ => Except.ok (delSegments m)

/-- `ManSegArray::copytoIEEEdouble()`: allocates a fresh `length`-element
double array and sets `full[i] = heads[i]`, where the right-hand side goes
through the `Head` accessor's conversion to double, i.e. the head-only
decode of `heads[i]`. -/
def copytoIEEEdouble (st : SegState) : List ℕ :=
  (List.range st.length).map fun i => decodeHeadOnly (st.heads i)

/-! ### Claim C7: mirror construction -/

/-- C7. `copytoIEEEdouble` produces a fresh `length`-element array whose
`i`-th element is `decodeHeadOnly (heads i)` — the head-only decode, even
when the element's tail is nonzero (the tails array is irrelevant to the
mirror) — and each output index depends only on the corresponding head
cell. -/
theorem mirror_build_spec (st : SegState) (i : ℕ) (hi : i < st.length) :
    (copytoIEEEdouble st).length = st.length ∧
      (copytoIEEEdouble st)[i]? = some (decodeHeadOnly (st.heads i)) ∧
      (∀ t', copytoIEEEdouble { st with tails := t' } = copytoIEEEdouble st) ∧
      (∀ st' : SegState, st'.length = st.length → st'.heads i = st.heads i →
        (copytoIEEEdouble st')[i]? = (copytoIEEEdouble st)[i]?) := by
  refine ⟨by simp [copytoIEEEdouble], ?_, fun t' => rfl, ?_⟩
  · simp [copytoIEEEdouble, List.getElem?_map, List.getElem?_range hi]
  · intro st' hlen hheads
    simp [copytoIEEEdouble, List.getElem?_map, hlen, List.getElem?_range hi, hheads]

/-- Witness for C7 on a length-2 array with head cells `1072693248` and a
nonzero tail. -/
theorem mirror_build_spec_witness :
    (0 : ℕ) < (⟨fun _ => 1072693248, fun _ => 77, 2⟩ : SegState).length ∧
      (copytoIEEEdouble ⟨fun _ => 1072693248, fun _ => 77, 2⟩).length = 2 ∧
      (copytoIEEEdouble ⟨fun _ => 1072693248, fun _ => 77, 2⟩)[0]? =
        some (decodeHeadOnly 1072693248) := by
  have h := mirror_build_spec ⟨fun _ => 1072693248, fun _ => 77, 2⟩ 0 (by norm_num)
  exact ⟨by norm_num, h.1, h.2.1⟩

/-! ### Claim C8: double release -/

/-- Counterexample to C8 as stated: starting from an allocated composite
array, release the storage once; a second `delSegments` is a silent no-op —
it returns the very same state, while the spec-mandated behaviour
(`delSegmentsSpecced`) would report a `DoubleRelease` error.  The source's
`del` merely null-checks (`if(heads != nullptr) ...`) and returns `void`, so
no error is ever reported. -/
theorem double_release_counterexample :
    delSegments (delSegments ⟨some ⟨fun _ => 0, fun _ => 0, 1⟩, none, 1⟩) =
        delSegments ⟨some ⟨fun _ => 0, fun _ => 0, 1⟩, none, 1⟩ ∧
      delSegmentsSpecced (delSegments ⟨some ⟨fun _ => 0, fun _ => 0, 1⟩, none, 1⟩) =
        Except.error "DoubleRelease" := by
  constructor <;> rfl

/-- C8 as amended: a repeated `delSegments` is silently ignored, not
rejected — the null checks make the second call a no-op (`delSegments` is
idempotent), and the operation has no error channel (its only result is the
new state). -/
theorem double_release_silent (m : ManSegState) :
    delSegments (delSegments m) = delSegments m := by
  unfold delSegments tsaDel
  by_cases hf : m.full = none <;> simp [hf]

/-! ### Claim C2: head-only round trip precision

`decodeHeadOnly (encodeHeadOnly d)` zeroes the lower 32 bits of `d`'s
pattern, i.e. the low 32 mantissa bits.  For a normal double this loses at
most `(2^32 - 1) / 2^52 < 2^-20 < 1e-6` relatively.  For subnormals the
claim fails: the smallest positive subnormal (pattern `1`) decodes head-only
to `+0.0`, a relative error of `1`. -/

lemma headTrunc_eq (d : ℕ) (h64 : d < 2 ^ 64) :
    decodeHeadOnly (encodeHeadOnly d) = d - d % 2 ^ 32 := by
  unfold decodeHeadOnly encodeHeadOnly
  omega

lemma signBit_headTrunc (d : ℕ) (h64 : d < 2 ^ 64) :
    signBit (d - d % 2 ^ 32) = signBit d := by
  unfold signBit
  omega

lemma expField_headTrunc (d : ℕ) :
    expField (d - d % 2 ^ 32) = expField d := by
  unfold expField
  omega

lemma mantField_headTrunc (d : ℕ) :
    mantField (d - d % 2 ^ 32) = mantField d - d % 2 ^ 32 := by
  unfold mantField
  omega

lemma mod32_le_mantField (d : ℕ) : d % 2 ^ 32 ≤ mantField d := by
  unfold mantField
  omega

/-- The core rational estimate: truncating `r < 2^32` from a normal mantissa
`m` changes the value `s * ((2^52 + m) * E)` by `r * E`, a relative change
of at most `r / 2^52 < 1e-6`. -/
lemma normal_trunc_ratio (m r : ℕ) (E : ℚ) (hE : 0 < E) (hrm : r ≤ m)
    (hr : r < 2 ^ 32) (s : ℚ) (hsgn : s = 1 ∨ s = -1) :
    |s * (((2 ^ 52 + (m - r) : ℕ) : ℚ) * E) - s * (((2 ^ 52 + m : ℕ) : ℚ) * E)| /
      |s * (((2 ^ 52 + m : ℕ) : ℚ) * E)| ≤ 1 / 1000000 := by
  have hA_pos : (0 : ℚ) < ((2 ^ 52 + m : ℕ) : ℚ) := by
    have : (0 : ℕ) < 2 ^ 52 + m := by positivity
    exact_mod_cast this
  have hA' : ((2 ^ 52 + (m - r) : ℕ) : ℚ) = ((2 ^ 52 + m : ℕ) : ℚ) - (r : ℚ) := by
    push_cast [hrm]
    ring
  have habs_s : |s| = 1 := by rcases hsgn with h | h <;> simp [h]
  have hdiff : s * ((((2 ^ 52 + m : ℕ) : ℚ) - (r : ℚ)) * E) -
      s * (((2 ^ 52 + m : ℕ) : ℚ) * E) = -(s * ((r : ℚ) * E)) := by ring
  rw [hA', hdiff, abs_neg]
  simp only [abs_mul, habs_s, one_mul, Nat.abs_cast,
    abs_of_pos hE, abs_of_pos hA_pos]
  rw [mul_div_mul_right _ _ (ne_of_gt hE)]
  rw [div_le_div_iff hA_pos (by norm_num)]
  have hn : r * 1000000 ≤ 2 ^ 52 + m := by omega
  have hq : (r : ℚ) * 1000000 ≤ ((2 ^ 52 + m : ℕ) : ℚ) := by
    exact_mod_cast hn
  linarith

/-- Counterexample to C2 as stated: the smallest positive subnormal (bit
pattern `1`, a finite nonzero double) becomes `+0.0` under the head-only
round trip, so its relative error is `1 > 1e-6`. -/
theorem head_precision_counterexample :
    expField 1 ≠ 2047 ∧ val64 1 ≠ 0 ∧
      MaxSingleSegmentPrecision <
        |val64 (decodeHeadOnly (encodeHeadOnly 1)) - val64 1| / |val64 1| := by
  have hx : (0 : ℚ) < (2 : ℚ) ^ (-(1074 : ℤ)) := zpow_pos (by norm_num) _
  have h1 : val64 1 = (2 : ℚ) ^ (-(1074 : ℤ)) := by
    unfold val64 signBit expField mantField
    norm_num
  have h0 : val64 (decodeHeadOnly (encodeHeadOnly 1)) = 0 := by
    unfold val64 decodeHeadOnly encodeHeadOnly signBit expField mantField
    norm_num
  refine ⟨by unfold expField; norm_num, by rw [h1]; exact ne_of_gt hx, ?_⟩
  rw [h0, h1, zero_sub, abs_neg, abs_of_pos hx, div_self (ne_of_gt hx)]
  unfold MaxSingleSegmentPrecision
  norm_num

/-- C2 as amended: for every finite *normal* double (exponent field in
`[1, 2046]`), the head-only round trip `decodeHeadOnly ∘ encodeHeadOnly`
has relative error at most `MaxSingleSegmentPrecision = 1e-6`.  (Subnormal
inputs violate the bound, see the counterexample.) -/
theorem head_precision_bound (d : ℕ) (h64 : d < 2 ^ 64)
    (hnorm : 1 ≤ expField d) (hfin : expField d ≠ 2047) :
    |val64 (decodeHeadOnly (encodeHeadOnly d)) - val64 d| / |val64 d| ≤
      MaxSingleSegmentPrecision := by
  rw [headTrunc_eq d h64]
  have hs := signBit_headTrunc d h64
  have he := expField_headTrunc d
  have hm := mantField_headTrunc d
  have hrm := mod32_le_mantField d
  have hrlt : d % 2 ^ 32 < 2 ^ 32 := Nat.mod_lt _ (by norm_num)
  have hne : expField d ≠ 0 := by omega
  have hE : (0 : ℚ) < (2 : ℚ) ^ ((expField d : ℤ) - 1075) := zpow_pos (by norm_num) _
  unfold val64 MaxSingleSegmentPrecision
  rw [hs, he, hm]
  simp only [if_neg hne]
  rcases eq_or_ne (signBit d) 1 with hs1 | hs1
  · simp only [if_pos hs1]
    exact normal_trunc_ratio (mantField d) (d % 2 ^ 32) _ hE hrm hrlt (-1) (Or.inr rfl)
  · simp only [if_neg hs1]
    exact normal_trunc_ratio (mantField d) (d % 2 ^ 32) _ hE hrm hrlt 1 (Or.inl rfl)

/-- Witness for C2 (amended) at the bit pattern of `1.0`, whose exponent
field is `1023`. -/
theorem head_precision_bound_witness :
    (4607182418800017408 : ℕ) < 2 ^ 64 ∧
      1 ≤ expField 4607182418800017408 ∧
      expField 4607182418800017408 ≠ 2047 ∧
      |val64 (decodeHeadOnly (encodeHeadOnly 4607182418800017408)) -
          val64 4607182418800017408| / |val64 4607182418800017408| ≤
        MaxSingleSegmentPrecision :=
  ⟨by norm_num, by unfold expField; norm_num, by unfold expField; norm_num,
   head_precision_bound 4607182418800017408 (by norm_num)
     (by unfold expField; norm_num) (by unfold expField; norm_num)⟩

end ManSeg
